import Mathlib

/-!
Verification of the OrbInk annotator core (src/main.rs).

The stroke sampler and ribbon-geometry builder of `main.rs` are embedded as
pure Lean functions.  Numeric state (coordinates, pressures, brush sizes,
timestamps) is modelled over `ℚ`, so that every handler is computable and
concrete runs can be settled by `decide`.  The single floating-point
operation with no exact rational counterpart, `f32::sqrt` (used only to
normalise segment direction vectors, never in control flow), is abstracted
as a parameter `sq : ℚ → ℚ`; all structural claims hold for every `sq`.
A real-valued copy of the segment computation, using `Real.sqrt`, is given
further down for the metric claims about the segment normal.

`Instant`/`Duration` are modelled as rational timestamps in milliseconds:
`now.duration_since t` becomes `now - t`, and each handler that reads the
clock takes `now` as an argument.
-/

namespace OrbInk

/-- The `StrokePoint` struct of main.rs (lines 7-12): position and pressure. -/
structure StrokePoint where
  x : ℚ
  y : ℚ
  pressure : ℚ
deriving DecidableEq, Repr

/-- A 2-D point of the geometry produced for the renderer. -/
abbrev P2 := ℚ × ℚ

/-- A filled triangle, as pushed into a `gpui::Path`. -/
abbrev Tri := P2 × P2 × P2

/-- A `gpui::Path<Pixels>` is modelled by its list of filled triangles:
`Path::new(start)` is the empty list, `push_triangle` appends one triangle,
and `PathBuilder::add_polygon(&[p0,p1,p2,p3], true)` on a convex quad adds
the two fan triangles `(p0,p1,p2)` and `(p0,p2,p3)` (the triangulation of
the quad described in the design spec; gpui itself is outside this
repository). -/
abbrev Geom := List Tri

/-- The `Stroke` struct of main.rs (lines 14-20). -/
structure Stroke where
  points : List StrokePoint
  color : ℕ
  size : ℚ
  path : Option Geom
deriving DecidableEq, Repr

/-- The `Annotator` struct of main.rs (lines 22-31): the document state. -/
structure Annotator where
  strokes : List Stroke
  text : String
  brush_size : ℚ
  brush_color : ℕ
  is_drawing : Bool
  last_sample_time : Option ℚ
  sample_interval : ℚ
  min_sample_distance : ℚ
deriving DecidableEq, Repr

/-- The constructor `Annotator::new` (lines 34-45). -/
def Annotator.new : Annotator :=
  { strokes := []
    text := "OrbInk"
    brush_size := 1
    brush_color := 0x00ff00
    is_drawing := false
    last_sample_time := none
    sample_interval := 16
    min_sample_distance := 1.5 }

/-- Segment width, the expression shared verbatim by `build_path_from`
(line 55) and `append_segment` (line 71):
`((a.pressure + b.pressure) * 0.5 * 12.0 * size).max(1.0)`. -/
def segWidth (a b : StrokePoint) (size : ℚ) : ℚ :=
  max ((a.pressure + b.pressure) * 0.5 * 12.0 * size) 1.0

/-- The two triangles covering the quad of one stroke segment, the
computation shared verbatim by the loop body of `build_path_from`
(lines 53-65) and by `append_segment` (lines 71-82).  `sq` stands for
`f32::sqrt`. -/
def segTris (sq : ℚ → ℚ) (a b : StrokePoint) (size : ℚ) : Geom :=
  let width := segWidth a b size
  let dx := b.x - a.x
  let dy := b.y - a.y
  let len := max (sq (dx * dx + dy * dy)) 1.0
  let nx := -dy / len * width * 0.5
  let ny := dx / len * width * 0.5
  let p0 : P2 := (a.x - nx, a.y - ny)
  let p1 : P2 := (a.x + nx, a.y + ny)
  let p2 : P2 := (b.x + nx, b.y + ny)
  let p3 : P2 := (b.x - nx, b.y - ny)
  [(p0, p1, p2), (p0, p2, p3)]

/-- The method `Annotator::append_segment` (lines 70-83): push the segment's two
triangles onto an existing path. -/
def append_segment (sq : ℚ → ℚ) (path : Geom) (a b : StrokePoint) (size : ℚ) : Geom :=
  path ++ segTris sq a b size

/-- The consecutive pairs `points.windows(2)` iterated by
`build_path_from` (line 52). -/
def windows2 {α : Type} : List α → List (α × α)
  | [] => []
  | [_] => []
  | a :: b :: rest => (a, b) :: windows2 (b :: rest)

/-- The triangles accumulated by the loop of `build_path_from`
(lines 52-66): two triangles per consecutive point pair. -/
def stroke_tris (sq : ℚ → ℚ) (size : ℚ) (pts : List StrokePoint) : Geom :=
  (windows2 pts).flatMap fun ab => segTris sq ab.1 ab.2 size

/-- The method `Annotator::build_path_from` (lines 47-68): `none` for fewer than two
points, otherwise the bulk-built geometry.  (It is a pure function of the
stroke; the stroke itself is not modified.) -/
def build_path_from (sq : ℚ → ℚ) (stroke : Stroke) : Option Geom :=
  if stroke.points.length < 2 then none
  else some (stroke_tris sq stroke.size stroke.points)

/-- Replace the last element of a list, modelling `Vec::last_mut`
assignment. -/
def setLast {α : Type} : List α → α → List α
  | [], _ => []
  | [_], x => [x]
  | a :: b :: rest, x => a :: setLast (b :: rest) x

/-- The `on_any_mouse_down` handler (lines 108-113): push a fresh
one-point stroke with the current brush, set `is_drawing`, record the
clock. -/
def on_any_mouse_down (st : Annotator) (pos : ℚ × ℚ) (now : ℚ) : Annotator :=
  { st with
      strokes := st.strokes ++
        [{ points := [⟨pos.1, pos.2, 1⟩]
           color := st.brush_color
           size := st.brush_size
           path := none }]
      is_drawing := true
      last_sample_time := some now }

/-- The distance gate of the pointer-move handler (lines 119-126): accept
when the squared distance from the stroke's last point reaches
`min_sample_distance²`; with no last point, always accept. -/
def should_sample (st : Annotator) (stroke : Stroke) (p : StrokePoint) : Bool :=
  match stroke.points.getLast? with
  | some last =>
      decide (st.min_sample_distance * st.min_sample_distance ≤
        (p.x - last.x) * (p.x - last.x) + (p.y - last.y) * (p.y - last.y))
  | none => true

/-- The time gate of the pointer-move handler (lines 127-130): accept when
`sample_interval` has elapsed since the last accepted sample; with no
recorded time, always accept. -/
def time_ok (st : Annotator) (now : ℚ) : Bool :=
  match st.last_sample_time with
  | some t => decide (st.sample_interval ≤ now - t)
  | none => true

/-- The accepted-sample update of the pointer-move handler (lines
135-147): push the point; when the stroke already had a last point `a`
(i.e. the new length is ≥ 2), extend the cached path — creating it empty
(`Path::new(start)`) when absent — by the segment from `a` to `p`. -/
def accept_sample (sq : ℚ → ℚ) (stroke : Stroke) (p : StrokePoint) : Stroke :=
  match stroke.points.getLast? with
  | none => { stroke with points := stroke.points ++ [p] }
  | some a =>
      let base : Geom :=
        match stroke.path with
        | none => []
        | some g => g
      { stroke with
          points := stroke.points ++ [p]
          path := some (append_segment sq base a p stroke.size) }

/-- The `on_mouse_move` handler (lines 114-150).  The source drops the
event by early `return` when `!(should_sample || time_ok)`; here the
accept branch is taken when `should_sample || time_ok` holds, which is the
same test.  `last_sample_time` is set to `now` on acceptance (line 134). -/
def on_mouse_move (sq : ℚ → ℚ) (st : Annotator) (pos : ℚ × ℚ)
    (dragging : Bool) (now : ℚ) : Annotator :=
  if st.is_drawing || dragging then
    match st.strokes.getLast? with
    | none => st
    | some stroke =>
      if should_sample st stroke ⟨pos.1, pos.2, 1⟩ || time_ok st now then
        { st with
            strokes := setLast st.strokes (accept_sample sq stroke ⟨pos.1, pos.2, 1⟩)
            last_sample_time := some now }
      else st
  else st

/-- The `on_mouse_up` handler (lines 151-157): clear the last stroke's
point list (`stroke.points.clear()`), reset `is_drawing` and
`last_sample_time`. -/
def on_mouse_up (st : Annotator) : Annotator :=
  match st.strokes.getLast? with
  | none => { st with is_drawing := false, last_sample_time := none }
  | some stroke =>
      { st with
          strokes := setLast st.strokes { stroke with points := [] }
          is_drawing := false
          last_sample_time := none }

/-- The clear-button handler (lines 182-184): `strokes.clear()`. -/
def on_clear (st : Annotator) : Annotator :=
  { st with strokes := [] }

/-- The size-decrement handler (lines 196-198):
`brush_size = (brush_size - 0.2).max(0.2)`. -/
def on_size_dec (st : Annotator) : Annotator :=
  { st with brush_size := max (st.brush_size - 0.2) 0.2 }

/-- The size-increment handler (lines 210-212):
`brush_size = (brush_size + 0.2).min(5.0)`. -/
def on_size_inc (st : Annotator) : Annotator :=
  { st with brush_size := min (st.brush_size + 0.2) 5.0 }

/-- The color-button handlers (lines 224-226, 238-240, 252-254):
`brush_color = c` for the fixed palette. -/
def on_color (st : Annotator) (c : ℕ) : Annotator :=
  { st with brush_color := c }

/-- The per-frame snapshot taken by `render` (lines 88-92): each stroke
with a present path contributes its path tagged with its color. -/
def render_draws (st : Annotator) : List (Geom × ℕ) :=
  st.strokes.filterMap fun s => s.path.map fun p => (p, s.color)

/-- A concrete stand-in for the abstract square-root routine, used only to
instantiate witnesses and counterexamples. -/
def sq0 : ℚ → ℚ := fun q => q

/-- The consistency property the design spec states as an invariant: a
stroke's cached geometry, when present, equals the geometry bulk-built
from its current point list. -/
def StrokeConsistent (sq : ℚ → ℚ) (s : Stroke) : Prop :=
  s.path = none ∨ build_path_from sq s = s.path

/-- The consistency property over every stroke of the document. -/
def DocConsistent (sq : ℚ → ℚ) (st : Annotator) : Prop :=
  ∀ s ∈ st.strokes, StrokeConsistent sq s

/-- The strengthened (inductive) form of the cache-consistency invariant:
the cached geometry field always equals the result of the bulk builder —
in particular it is `none` exactly when the stroke has fewer than two
points. -/
def StrokeSynced (sq : ℚ → ℚ) (s : Stroke) : Prop :=
  build_path_from sq s = s.path

/-- The strengthened invariant over every stroke of the document. -/
def DocSynced (sq : ℚ → ℚ) (st : Annotator) : Prop :=
  ∀ s ∈ st.strokes, StrokeSynced sq s

/-- Every recorded point of every stroke carries pressure 1. -/
def AllPressureOne (st : Annotator) : Prop :=
  ∀ s ∈ st.strokes, ∀ p ∈ s.points, p.pressure = 1

instance (sq : ℚ → ℚ) (s : Stroke) : Decidable (StrokeConsistent sq s) :=
  inferInstanceAs (Decidable (_ ∨ _))

instance (sq : ℚ → ℚ) (st : Annotator) : Decidable (DocConsistent sq st) :=
  inferInstanceAs (Decidable (∀ s ∈ st.strokes, StrokeConsistent sq s))

instance (sq : ℚ → ℚ) (s : Stroke) : Decidable (StrokeSynced sq s) :=
  inferInstanceAs (Decidable (_ = _))

instance (sq : ℚ → ℚ) (st : Annotator) : Decidable (DocSynced sq st) :=
  inferInstanceAs (Decidable (∀ s ∈ st.strokes, StrokeSynced sq s))

instance (st : Annotator) : Decidable (AllPressureOne st) :=
  inferInstanceAs (Decidable (∀ s ∈ st.strokes, ∀ p ∈ s.points, p.pressure = 1))

/-- Document state after a pointer-down at the origin at time 0. -/
def exSt1 : Annotator := on_any_mouse_down Annotator.new (0, 0) 0

/-- Document state after additionally accepting a pointer-move to
`(10, 0)` at time 20 (distance 10 ≥ 1.5, so the distance gate accepts). -/
def exSt2 : Annotator := on_mouse_move sq0 exSt1 (10, 0) false 20

/-- The single stroke of `exSt1`: one point at the origin. -/
def exStroke1 : Stroke :=
  { points := [⟨0, 0, 1⟩], color := 0x00ff00, size := 1, path := none }

/-- The single stroke of `exSt2`: two points and the cached segment
geometry between them. -/
def exStroke2 : Stroke :=
  { points := [⟨0, 0, 1⟩, ⟨10, 0, 1⟩], color := 0x00ff00, size := 1,
    path := some (segTris sq0 ⟨0, 0, 1⟩ ⟨10, 0, 1⟩ 1) }

/-- A toolbar brush-size action: one press of 粗细+ or 粗细-. -/
inductive SizeOp where
  | inc : SizeOp
  | dec : SizeOp

/-- Dispatch one brush-size action to its handler. -/
def applySizeOp (st : Annotator) : SizeOp → Annotator
  | SizeOp.inc => on_size_inc st
  | SizeOp.dec => on_size_dec st

/-- A sequence of brush-size actions applied in order. -/
def applySizeOps (st : Annotator) (ops : List SizeOp) : Annotator :=
  ops.foldl applySizeOp st

/-- The `StrokePoint` fields over exact reals: the `f32` fields of the
source, idealised over `ℝ` for the metric claims about the segment
normal. -/
structure StrokePointR where
  x : ℝ
  y : ℝ
  pressure : ℝ

/-- Real-valued segment width, the expression of line 55 / line 71. -/
noncomputable def segWidthR (a b : StrokePointR) (size : ℝ) : ℝ :=
  max ((a.pressure + b.pressure) * 0.5 * 12.0 * size) 1.0

/-- Real-valued segment normal `(nx, ny)` of lines 56-60 / 72-76, with
`f32::sqrt` read as `Real.sqrt`. -/
noncomputable def segNormalR (a b : StrokePointR) (size : ℝ) : ℝ × ℝ :=
  let width := segWidthR a b size
  let dx := b.x - a.x
  let dy := b.y - a.y
  let len := max (Real.sqrt (dx * dx + dy * dy)) 1.0
  (-dy / len * width * 0.5, dx / len * width * 0.5)

attribute [local semireducible] Rat.add Rat.mul Rat.sub Rat.inv Rat.ofScientific

theorem setLast_eq {α : Type} (x : α) :
    ∀ l : List α, l ≠ [] → setLast l x = l.dropLast ++ [x]
  | [], h => absurd rfl h
  | [_], _ => rfl
  | b :: c :: r, _ => by
    show b :: setLast (c :: r) x = (b :: c :: r).dropLast ++ [x]
    rw [setLast_eq x (c :: r) (by simp)]
    simp

theorem mem_setLast {α : Type} {x a : α} {l : List α}
    (h : a ∈ setLast l x) : a = x ∨ a ∈ l := by
  cases l with
  | nil => simp [setLast] at h
  | cons b r =>
    rw [setLast_eq x (b :: r) (by simp)] at h
    rcases List.mem_append.mp h with h1 | h1
    · exact Or.inr ((List.dropLast_sublist (b :: r)).subset h1)
    · exact Or.inl (by simpa using h1)

theorem getLast?_setLast {α : Type} {x : α} {l : List α} (h : l ≠ []) :
    (setLast l x).getLast? = some x := by
  rw [setLast_eq x l h]
  exact List.getLast?_concat _

theorem windows2_concat {α : Type} {a : α} (p : α) :
    ∀ {l : List α}, l.getLast? = some a →
      windows2 (l ++ [p]) = windows2 l ++ [(a, p)]
  | [], h => by simp at h
  | [b], h => by
    simp at h
    subst h
    rfl
  | b :: c :: r, h => by
    have h' : (c :: r).getLast? = some a := by
      simpa [List.getLast?_cons_cons] using h
    show (b, c) :: windows2 ((c :: r) ++ [p]) = ((b, c) :: windows2 (c :: r)) ++ [(a, p)]
    rw [windows2_concat p h']
    simp

theorem windows2_length {α : Type} :
    ∀ l : List α, (windows2 l).length = l.length - 1
  | [] => rfl
  | [_] => rfl
  | a :: b :: r => by
    show ((a, b) :: windows2 (b :: r)).length = (a :: b :: r).length - 1
    rw [List.length_cons, windows2_length (b :: r)]
    simp

theorem segTris_length (sq : ℚ → ℚ) (a b : StrokePoint) (size : ℚ) :
    (segTris sq a b size).length = 2 := rfl

theorem flatMap_segTris_length (sq : ℚ → ℚ) (size : ℚ) :
    ∀ l : List (StrokePoint × StrokePoint),
      (l.flatMap fun ab => segTris sq ab.1 ab.2 size).length = 2 * l.length
  | [] => rfl
  | ab :: r => by
    rw [List.flatMap_cons, List.length_append, segTris_length,
      flatMap_segTris_length sq size r]
    simp [List.length_cons]
    ring

/-- C5: for every segment between consecutive stroke points `a` and `b`
and every brush scale, the computed width equals
`max(1.0, ((a.pressure + b.pressure) / 2) * 12.0 * brush_scale)`; in
particular the width is at least 1 for all pressure inputs, including
pressure 0. -/
theorem segment_width_spec (a b : StrokePoint) (size : ℚ) :
    segWidth a b size = max 1 ((a.pressure + b.pressure) / 2 * 12 * size)
      ∧ 1 ≤ segWidth a b size := by
  constructor
  · unfold segWidth
    rw [max_comm]
    norm_num
    ring_nf
  · exact le_trans (by norm_num) (le_max_right _ _)

/-- C7: a stroke whose point list has fewer than two points yields no
geometry.  `build_path_from` is a pure function of the stroke, so the
stroke itself is untouched. -/
theorem build_geometry_short (sq : ℚ → ℚ) (s : Stroke)
    (h : s.points.length < 2) : build_path_from sq s = none := by
  unfold build_path_from
  rw [if_pos h]

/-- Witness for `build_geometry_short` at a concrete one-point stroke. -/
theorem build_geometry_short_witness :
    build_path_from sq0 { points := [⟨0, 0, 1⟩], color := 0, size := 1, path := none } = none :=
  build_geometry_short sq0 _ (by decide)

/-- C6: for a stroke with `N ≥ 2` points, `build_path_from` returns one
shape made of the segment triangles of every consecutive point pair (two
triangles per pair, the fan split of the pair's quad, see `segTris`),
exactly `2*(N-1)` triangles in total. -/
theorem build_geometry_triangles (sq : ℚ → ℚ) (s : Stroke)
    (h : 2 ≤ s.points.length) :
    build_path_from sq s =
      some ((windows2 s.points).flatMap fun ab => segTris sq ab.1 ab.2 s.size)
    ∧ ((windows2 s.points).flatMap fun ab => segTris sq ab.1 ab.2 s.size).length
        = 2 * (s.points.length - 1) := by
  constructor
  · unfold build_path_from stroke_tris
    rw [if_neg (by omega)]
  · rw [flatMap_segTris_length, windows2_length]

/-- Witness for `build_geometry_triangles` at a concrete two-point
stroke. -/
theorem build_geometry_triangles_witness :
    build_path_from sq0 { points := [⟨0, 0, 1⟩, ⟨10, 0, 1⟩], color := 0, size := 1, path := none } =
      some ((windows2 [(⟨0, 0, 1⟩ : StrokePoint), ⟨10, 0, 1⟩]).flatMap
        fun ab => segTris sq0 ab.1 ab.2 1)
    ∧ ((windows2 [(⟨0, 0, 1⟩ : StrokePoint), ⟨10, 0, 1⟩]).flatMap
        fun ab => segTris sq0 ab.1 ab.2 1).length = 2 * (2 - 1) :=
  build_geometry_triangles sq0
    { points := [⟨0, 0, 1⟩, ⟨10, 0, 1⟩], color := 0, size := 1, path := none } (by decide)

theorem brush_size_step_bounds (st : Annotator) (op : SizeOp)
    (h1 : 0.2 ≤ st.brush_size) (h2 : st.brush_size ≤ 5) :
    0.2 ≤ (applySizeOp st op).brush_size ∧ (applySizeOp st op).brush_size ≤ 5 := by
  cases op with
  | inc =>
    constructor
    · exact le_min (by linarith) (by norm_num)
    · exact le_trans (min_le_right _ _) (by norm_num)
  | dec =>
    constructor
    · exact le_trans (by norm_num) (le_max_right _ _)
    · exact max_le (by linarith) (by norm_num)

theorem brush_size_fold_bounds :
    ∀ (ops : List SizeOp) (st : Annotator),
      0.2 ≤ st.brush_size → st.brush_size ≤ 5 →
      0.2 ≤ (applySizeOps st ops).brush_size ∧ (applySizeOps st ops).brush_size ≤ 5
  | [], _, h1, h2 => ⟨h1, h2⟩
  | op :: rest, st, h1, h2 => by
    have h := brush_size_step_bounds st op h1 h2
    exact brush_size_fold_bounds rest (applySizeOp st op) h.1 h.2

/-- C9: starting from the default brush size 1.0, every sequence of
toolbar size increments and decrements keeps the brush size within
`[0.2, 5.0]`; each decrement computes `max(brush_size - 0.2, 0.2)`, each
increment computes `min(brush_size + 0.2, 5.0)`, and after 25 increments
the size is no more than 5.0. -/
theorem brush_size_clamped (ops : List SizeOp) (st : Annotator) :
    (0.2 ≤ (applySizeOps Annotator.new ops).brush_size
      ∧ (applySizeOps Annotator.new ops).brush_size ≤ 5)
    ∧ (on_size_dec st).brush_size = max (st.brush_size - 0.2) 0.2
    ∧ (on_size_inc st).brush_size = min (st.brush_size + 0.2) 5
    ∧ (applySizeOps Annotator.new (List.replicate 25 SizeOp.inc)).brush_size ≤ 5 := by
  refine ⟨brush_size_fold_bounds ops Annotator.new (by norm_num [Annotator.new])
    (by norm_num [Annotator.new]), rfl, ?_, ?_⟩
  · norm_num [on_size_inc]
  · exact (brush_size_fold_bounds _ Annotator.new (by norm_num [Annotator.new])
      (by norm_num [Annotator.new])).2

/-- C1 counterexample: the claim says pointer-up leaves the last stroke's
point list unchanged, but running `on_mouse_up` on a concrete state whose
last stroke holds two points empties the point list (the handler calls
`stroke.points.clear()`, line 153); only the cached geometry survives. -/
theorem mouse_up_clears_points_cx :
    exSt2.strokes.getLast?.map (fun s => s.points.length) = some 2
    ∧ (on_mouse_up exSt2).strokes.getLast?.map (fun s => s.points.length) = some 0
    ∧ (on_mouse_up exSt2).strokes.getLast?.map (fun s => s.path) =
        exSt2.strokes.getLast?.map (fun s => s.path) := by
  decide

/-- C1 amended: pointer-up clears the last stroke's point list while
retaining its color, size and cached geometry (the render keeps drawing
the stroke from the cached path), and resets `is_drawing` and
`last_sample_time` at the document level. -/
theorem mouse_up_spec (st : Annotator) (s : Stroke)
    (h : st.strokes.getLast? = some s) :
    (on_mouse_up st).strokes.getLast? = some { s with points := [] }
    ∧ (on_mouse_up st).is_drawing = false
    ∧ (on_mouse_up st).last_sample_time = none := by
  have hne : st.strokes ≠ [] := by
    intro hnil
    rw [hnil] at h
    simp at h
  unfold on_mouse_up
  rw [h]
  exact ⟨getLast?_setLast hne, rfl, rfl⟩

/-- Witness for `mouse_up_spec` at the concrete two-point state. -/
theorem mouse_up_spec_witness :
    (on_mouse_up exSt2).strokes.getLast? = some { exStroke2 with points := [] }
    ∧ (on_mouse_up exSt2).is_drawing = false
    ∧ (on_mouse_up exSt2).last_sample_time = none :=
  mouse_up_spec exSt2 exStroke2 (by decide)

theorem accept_sample_points (sq : ℚ → ℚ) (stroke : Stroke) (p : StrokePoint) :
    (accept_sample sq stroke p).points = stroke.points ++ [p] := by
  unfold accept_sample
  rcases h : stroke.points.getLast? with _ | a
  · simp [h]
  · simp [h]

/-- Characterisation of one pointer-move event on a drawing state with a
last recorded point and a recorded last-sample time: the event is
accepted — appending the point, updating the last stroke's geometry and
setting the clock — exactly when the distance gate or the time gate
passes; otherwise the state is returned unchanged. -/
theorem on_mouse_move_spec (sq : ℚ → ℚ) (st : Annotator) (pos : ℚ × ℚ)
    (drag : Bool) (now : ℚ) (stroke : Stroke) (lastPt : StrokePoint) (t : ℚ)
    (hdraw : st.is_drawing = true)
    (hlast : st.strokes.getLast? = some stroke)
    (hpt : stroke.points.getLast? = some lastPt)
    (ht : st.last_sample_time = some t) :
    on_mouse_move sq st pos drag now =
      if st.min_sample_distance * st.min_sample_distance ≤
          (pos.1 - lastPt.x) * (pos.1 - lastPt.x) + (pos.2 - lastPt.y) * (pos.2 - lastPt.y)
        ∨ st.sample_interval ≤ now - t
      then { st with
              strokes := setLast st.strokes (accept_sample sq stroke ⟨pos.1, pos.2, 1⟩)
              last_sample_time := some now }
      else st := by
  have hss : should_sample st stroke ⟨pos.1, pos.2, 1⟩
      = decide (st.min_sample_distance * st.min_sample_distance ≤
          (pos.1 - lastPt.x) * (pos.1 - lastPt.x) + (pos.2 - lastPt.y) * (pos.2 - lastPt.y)) := by
    unfold should_sample
    rw [hpt]
  have hto : time_ok st now = decide (st.sample_interval ≤ now - t) := by
    unfold time_ok
    rw [ht]
  unfold on_mouse_move
  by_cases h : st.min_sample_distance * st.min_sample_distance ≤
      (pos.1 - lastPt.x) * (pos.1 - lastPt.x) + (pos.2 - lastPt.y) * (pos.2 - lastPt.y)
    ∨ st.sample_interval ≤ now - t
  · rw [if_pos h]
    have hcond : (should_sample st stroke ⟨pos.1, pos.2, 1⟩ || time_ok st now) = true := by
      rw [hss, hto]
      rcases h with h | h
      · simp [h]
      · simp [h]
    simp only [hdraw, Bool.true_or, if_true, hlast, hcond]
  · rw [if_neg h]
    rw [not_or] at h
    have h1 : should_sample st stroke ⟨pos.1, pos.2, 1⟩ = false := by
      rw [hss]
      exact decide_eq_false h.1
    have h2 : time_ok st now = false := by
      rw [hto]
      exact decide_eq_false h.2
    simp only [hdraw, Bool.true_or, if_true, hlast, h1, h2, Bool.or_false]
    simp

/-- C3 counterexample: the first pointer-move offered after a pointer-down
is not unconditionally accepted.  After a pointer-down at the origin at
time 0, a move to `(0.5, 0)` at time 0 is 0.5 px from the start point
(closer than `min_sample_distance = 1.5`) and 0 ms after the recorded
pointer-down time (sooner than `sample_interval = 16`), so the handler
drops it: the state is unchanged and the stroke still has one point. -/
theorem first_move_gate_cx :
    on_mouse_move sq0 exSt1 (0.5, 0) false 0 = exSt1
    ∧ exSt1.strokes.getLast?.map (fun s => s.points.length) = some 1 := by
  decide

/-- C3 amended: the first pointer-move offered after a pointer-down is
subject to the normal sampling gates, measured against the stroke's
initial point and the pointer-down timestamp: it is appended exactly when
its squared distance from the start point reaches `min_sample_distance²`
or `sample_interval` has elapsed since pointer-down.  (The always-accept
branch for a missing last point can only fire on a stroke whose point
list is empty, which is not the case right after `begin_stroke`: the
pointer-down handler starts the stroke with one point and records the
clock.) -/
theorem first_move_gated (sq : ℚ → ℚ) (st : Annotator) (x y t x' y' now' : ℚ)
    (drag : Bool) :
    ((on_mouse_move sq (on_any_mouse_down st (x, y) t) (x', y') drag now').strokes.getLast?).map
        (fun s => s.points.length)
      = some (if st.min_sample_distance * st.min_sample_distance ≤
                  (x' - x) * (x' - x) + (y' - y) * (y' - y)
                ∨ st.sample_interval ≤ now' - t
              then 2 else 1) := by
  have hmove := on_mouse_move_spec sq (on_any_mouse_down st (x, y) t) (x', y') drag now'
    { points := [⟨x, y, 1⟩], color := st.brush_color, size := st.brush_size, path := none }
    ⟨x, y, 1⟩ t rfl (List.getLast?_concat _) rfl rfl
  rw [hmove]
  simp only [on_any_mouse_down]
  have hne : st.strokes ++
      [{ points := [⟨x, y, 1⟩], color := st.brush_color, size := st.brush_size,
         path := (none : Option Geom) }] ≠ [] := by
    simp
  by_cases hc : st.min_sample_distance * st.min_sample_distance ≤
      (x' - x) * (x' - x) + (y' - y) * (y' - y) ∨ st.sample_interval ≤ now' - t
  · rw [if_pos hc, if_pos hc]
    rw [getLast?_setLast hne]
    simp [accept_sample_points]
  · rw [if_neg hc, if_neg hc]
    rw [List.getLast?_concat]
    simp

/-- C4: on a drawing state with a last recorded point and a recorded
last-accepted-sample time, a pointer-move sample is accepted iff its
squared Euclidean distance from the last recorded point reaches
`min_sample_distance²` or the time elapsed since the last accepted sample
reaches `sample_interval`; on acceptance the point is pushed and the
last-sample time is set to `now`; on rejection the document state — point
list and last-sample time included — is returned unchanged (the handler
returns early). -/
theorem offer_sample_spec (sq : ℚ → ℚ) (st : Annotator) (pos : ℚ × ℚ)
    (drag : Bool) (now : ℚ) (stroke : Stroke) (lastPt : StrokePoint) (t : ℚ)
    (hdraw : st.is_drawing = true)
    (hlast : st.strokes.getLast? = some stroke)
    (hpt : stroke.points.getLast? = some lastPt)
    (ht : st.last_sample_time = some t) :
    (st.min_sample_distance * st.min_sample_distance ≤
        (pos.1 - lastPt.x) * (pos.1 - lastPt.x) + (pos.2 - lastPt.y) * (pos.2 - lastPt.y)
      ∨ st.sample_interval ≤ now - t →
      ∃ s', (on_mouse_move sq st pos drag now).strokes.getLast? = some s'
        ∧ s'.points = stroke.points ++ [⟨pos.1, pos.2, 1⟩]
        ∧ (on_mouse_move sq st pos drag now).last_sample_time = some now)
    ∧ (¬ (st.min_sample_distance * st.min_sample_distance ≤
          (pos.1 - lastPt.x) * (pos.1 - lastPt.x) + (pos.2 - lastPt.y) * (pos.2 - lastPt.y)
        ∨ st.sample_interval ≤ now - t) →
      on_mouse_move sq st pos drag now = st) := by
  have hmove := on_mouse_move_spec sq st pos drag now stroke lastPt t hdraw hlast hpt ht
  have hne : st.strokes ≠ [] := by
    intro hnil
    rw [hnil] at hlast
    simp at hlast
  constructor
  · intro hacc
    rw [hmove, if_pos hacc]
    exact ⟨accept_sample sq stroke ⟨pos.1, pos.2, 1⟩, getLast?_setLast hne,
      accept_sample_points sq stroke _, rfl⟩
  · intro hrej
    rw [hmove, if_neg hrej]

/-- Witness for `offer_sample_spec`: after a pointer-down at the origin at
time 0, a move to `(10, 0)` at time 20 is accepted (both gates pass) and
appends the point. -/
theorem offer_sample_spec_witness :
    ∃ s', (on_mouse_move sq0 exSt1 (10, 0) false 20).strokes.getLast? = some s'
      ∧ s'.points = exStroke1.points ++ [⟨10, 0, 1⟩]
      ∧ (on_mouse_move sq0 exSt1 (10, 0) false 20).last_sample_time = some 20 :=
  (offer_sample_spec sq0 exSt1 (10, 0) false 20 exStroke1 ⟨0, 0, 1⟩ 0
    (by decide) (by decide) (by decide) (by decide)).1 (by decide)

theorem mem_strokes_on_mouse_move (sq : ℚ → ℚ) (st : Annotator) (pos : ℚ × ℚ)
    (drag : Bool) (now : ℚ) (s : Stroke)
    (hs : s ∈ (on_mouse_move sq st pos drag now).strokes) :
    s ∈ st.strokes ∨
      ∃ stroke ∈ st.strokes, s = accept_sample sq stroke ⟨pos.1, pos.2, 1⟩ := by
  unfold on_mouse_move at hs
  by_cases hd : (st.is_drawing || drag) = true
  · rw [if_pos hd] at hs
    rcases hL : st.strokes.getLast? with _ | stroke
    · simp only [hL] at hs
      exact Or.inl hs
    · simp only [hL] at hs
      by_cases hg : (should_sample st stroke ⟨pos.1, pos.2, 1⟩ || time_ok st now) = true
      · rw [if_pos hg] at hs
        rcases mem_setLast hs with h | h
        · exact Or.inr ⟨stroke, List.mem_of_getLast?_eq_some hL, h⟩
        · exact Or.inl h
      · rw [if_neg hg] at hs
        exact Or.inl hs
  · rw [if_neg hd] at hs
    exact Or.inl hs

theorem mem_strokes_on_mouse_up (st : Annotator) (s : Stroke)
    (hs : s ∈ (on_mouse_up st).strokes) :
    s ∈ st.strokes ∨ ∃ stroke ∈ st.strokes, s = { stroke with points := [] } := by
  unfold on_mouse_up at hs
  rcases hL : st.strokes.getLast? with _ | stroke
  · simp only [hL] at hs
    exact Or.inl hs
  · simp only [hL] at hs
    rcases mem_setLast hs with h | h
    · exact Or.inr ⟨stroke, List.mem_of_getLast?_eq_some hL, h⟩
    · exact Or.inl h

/-- C10: every StrokePoint the program records — the pointer-down point
(line 109) and every accepted pointer-move sample (line 117) — carries
pressure exactly 1.0 (device pressure is never read): the all-pressures-1
property holds for the fresh document and is preserved by every handler,
and for pressure-1 endpoints the segment width computed by the geometry
builder equals `max(1.0, 12.0 * stroke.size)`. -/
theorem pressure_one_invariant (st : Annotator) (sq : ℚ → ℚ) (pos : ℚ × ℚ)
    (t now : ℚ) (drag : Bool) (c : ℕ) (a b : StrokePoint) (size : ℚ) :
    AllPressureOne Annotator.new
    ∧ (AllPressureOne st → AllPressureOne (on_any_mouse_down st pos t))
    ∧ (AllPressureOne st → AllPressureOne (on_mouse_move sq st pos drag now))
    ∧ (AllPressureOne st → AllPressureOne (on_mouse_up st))
    ∧ (AllPressureOne st → AllPressureOne (on_clear st))
    ∧ (AllPressureOne st → AllPressureOne (on_size_dec st))
    ∧ (AllPressureOne st → AllPressureOne (on_size_inc st))
    ∧ (AllPressureOne st → AllPressureOne (on_color st c))
    ∧ (a.pressure = 1 → b.pressure = 1 → segWidth a b size = max 1 (12 * size)) := by
  refine ⟨by decide, ?_, ?_, ?_, ?_, ?_, ?_, ?_, ?_⟩
  · intro h s hs p hp
    unfold on_any_mouse_down at hs
    rcases List.mem_append.mp hs with h1 | h1
    · exact h s h1 p hp
    · simp at h1
      rw [h1] at hp
      simp at hp
      rw [hp]
  · intro h s hs p hp
    rcases mem_strokes_on_mouse_move sq st pos drag now s hs with h1 | ⟨stroke, hstroke, rfl⟩
    · exact h s h1 p hp
    · rw [accept_sample_points] at hp
      rcases List.mem_append.mp hp with h2 | h2
      · exact h stroke hstroke p h2
      · simp at h2
        rw [h2]
  · intro h s hs p hp
    rcases mem_strokes_on_mouse_up st s hs with h1 | ⟨stroke, _, rfl⟩
    · exact h s h1 p hp
    · simp at hp
  · intro h s hs p hp
    simp [on_clear] at hs
  · intro h s hs p hp
    exact h s hs p hp
  · intro h s hs p hp
    exact h s hs p hp
  · intro h s hs p hp
    exact h s hs p hp
  · intro h1 h2
    unfold segWidth
    rw [h1, h2, max_comm]
    norm_num

/-- Witness for `pressure_one_invariant`: the preserved invariant and the
reduced width formula at concrete inputs. -/
theorem pressure_one_invariant_witness :
    AllPressureOne (on_mouse_move sq0 exSt1 (10, 0) false 20)
    ∧ segWidth ⟨0, 0, 1⟩ ⟨10, 0, 1⟩ 1 = max 1 (12 * 1) :=
  ⟨(pressure_one_invariant exSt1 sq0 (10, 0) 0 20 false 0 ⟨0, 0, 1⟩ ⟨10, 0, 1⟩ 1).2.2.1
      (by decide),
   (pressure_one_invariant exSt1 sq0 (10, 0) 0 20 false 0 ⟨0, 0, 1⟩ ⟨10, 0, 1⟩ 1).2.2.2.2.2.2.2.2
      rfl rfl⟩

theorem stroke_tris_concat (sq : ℚ → ℚ) (size : ℚ) {l : List StrokePoint}
    {a : StrokePoint} (p : StrokePoint) (h : l.getLast? = some a) :
    stroke_tris sq size (l ++ [p]) = stroke_tris sq size l ++ segTris sq a p size := by
  unfold stroke_tris
  rw [windows2_concat p h, List.flatMap_append]
  simp

theorem eq_singleton_of_short {α : Type} {l : List α} {a : α}
    (h1 : l.length < 2) (h2 : l.getLast? = some a) : l = [a] := by
  cases l with
  | nil => simp at h2
  | cons x xs =>
    cases xs with
    | nil =>
      simp at h2
      rw [h2]
    | cons y ys =>
      simp at h1
      omega

theorem strokeSynced_accept (sq : ℚ → ℚ) (stroke : Stroke) (p : StrokePoint)
    (h : StrokeSynced sq stroke) : StrokeSynced sq (accept_sample sq stroke p) := by
  unfold StrokeSynced at h ⊢
  unfold accept_sample
  rcases hL : stroke.points.getLast? with _ | a
  · have hnil : stroke.points = [] := List.getLast?_eq_none_iff.mp hL
    have hpath : stroke.path = none := by
      rw [← h]
      unfold build_path_from
      rw [if_pos (by rw [hnil]; simp)]
    simp only [hL]
    unfold build_path_from
    simp [hnil, hpath]
  · simp only [hL]
    rcases hp : stroke.path with _ | g
    · rw [hp] at h
      have hlen : stroke.points.length < 2 := by
        by_contra hge
        unfold build_path_from at h
        rw [if_neg hge] at h
        simp at h
      have hsing : stroke.points = [a] := eq_singleton_of_short hlen hL
      unfold build_path_from
      simp only [hp, hsing]
      rw [if_neg (by simp)]
      unfold stroke_tris append_segment
      rw [show ([a] ++ [p] : List StrokePoint) = [a, p] from rfl,
        show windows2 [a, p] = [(a, p)] from rfl]
      simp
    · rw [hp] at h
      have hge : ¬ stroke.points.length < 2 := by
        by_contra hlt
        unfold build_path_from at h
        rw [if_pos hlt] at h
        simp at h
      have hg : stroke_tris sq stroke.size stroke.points = g := by
        unfold build_path_from at h
        rw [if_neg hge] at h
        simpa using h
      unfold build_path_from
      simp only [hp]
      rw [if_neg (by simp; omega)]
      rw [stroke_tris_concat sq stroke.size p hL, hg]
      rfl

/-- C2 counterexample: the claimed invariant — cached geometry, when
present, matches the geometry built from the current point list — is not
preserved by the pointer-up handler: on a concrete state whose single
stroke has two points and consistent cached geometry, pointer-up empties
the point list but keeps the cached path, leaving stale geometry (present
with fewer than 2 points). -/
theorem geometry_invariant_cx :
    DocConsistent sq0 exSt2 ∧ ¬ DocConsistent sq0 (on_mouse_up exSt2) := by
  decide

/-- C2 amended: the (strengthened, inductive) cache-consistency invariant
`build_path_from(stroke) = stroke.path` — which implies the claimed
property, and in particular that geometry is absent below 2 points — is
preserved by pointer-down, pointer-move, clear and every brush change,
but not by pointer-up, which clears the point list while retaining the
cached geometry (see the counterexample). -/
theorem geometry_invariant_preserved (sq : ℚ → ℚ) (st : Annotator)
    (pos : ℚ × ℚ) (t now : ℚ) (drag : Bool) (c : ℕ) :
    (DocSynced sq st → DocSynced sq (on_any_mouse_down st pos t))
    ∧ (DocSynced sq st → DocSynced sq (on_mouse_move sq st pos drag now))
    ∧ (DocSynced sq st → DocSynced sq (on_clear st))
    ∧ (DocSynced sq st → DocSynced sq (on_size_dec st))
    ∧ (DocSynced sq st → DocSynced sq (on_size_inc st))
    ∧ (DocSynced sq st → DocSynced sq (on_color st c))
    ∧ (DocSynced sq st → DocConsistent sq st) := by
  refine ⟨?_, ?_, ?_, ?_, ?_, ?_, ?_⟩
  · intro h s hs
    unfold on_any_mouse_down at hs
    rcases List.mem_append.mp hs with h1 | h1
    · exact h s h1
    · simp at h1
      rw [h1]
      unfold StrokeSynced build_path_from
      simp
  · intro h s hs
    rcases mem_strokes_on_mouse_move sq st pos drag now s hs with h1 | ⟨stroke, hstroke, rfl⟩
    · exact h s h1
    · exact strokeSynced_accept sq stroke _ (h stroke hstroke)
  · intro h s hs
    simp [on_clear] at hs
  · intro h s hs
    exact h s hs
  · intro h s hs
    exact h s hs
  · intro h s hs
    exact h s hs
  · intro h s hs
    exact Or.inr (h s hs)

/-- Witness for `geometry_invariant_preserved`: the strengthened invariant
holds after the concrete pointer-down and accepted pointer-move, and it
implies the claimed consistency property there. -/
theorem geometry_invariant_preserved_witness :
    DocSynced sq0 (on_mouse_move sq0 exSt1 (10, 0) false 20) ∧ DocConsistent sq0 exSt1 :=
  ⟨(geometry_invariant_preserved sq0 exSt1 (10, 0) 0 20 false 0).2.1 (by decide),
   (geometry_invariant_preserved sq0 exSt1 (10, 0) 0 20 false 0).2.2.2.2.2.2 (by decide)⟩

/-- C8 counterexample: for the zero-length segment between duplicate
points (reachable, since the time gate can accept a sample at distance 0)
the computed normal is the zero vector: its magnitude is 0, while
`width/2 = 6`, so the magnitude does not always equal `width/2`. -/
theorem segment_normal_mag_cx :
    Real.sqrt ((segNormalR ⟨0, 0, 1⟩ ⟨0, 0, 1⟩ 1).1 ^ 2 +
        (segNormalR ⟨0, 0, 1⟩ ⟨0, 0, 1⟩ 1).2 ^ 2)
      ≠ segWidthR ⟨0, 0, 1⟩ ⟨0, 0, 1⟩ 1 / 2 := by
  have h1 : segNormalR ⟨0, 0, 1⟩ ⟨0, 0, 1⟩ 1 = (0, 0) := by
    simp only [segNormalR]
    norm_num
  have h2 : segWidthR ⟨0, 0, 1⟩ ⟨0, 0, 1⟩ 1 = 12 := by
    simp only [segWidthR]
    norm_num
  rw [h1, h2]
  simp [Real.sqrt_zero]
  norm_num

/-- C8 amended: the segment normal is always perpendicular to the segment
direction, and its magnitude equals `width/2` whenever the squared
segment length is at least 1; for shorter segments the `len` floor at 1.0
scales the magnitude below `width/2` (counterexample above). -/
theorem segment_normal_spec (a b : StrokePointR) (size : ℝ) :
    (segNormalR a b size).1 * (b.x - a.x) + (segNormalR a b size).2 * (b.y - a.y) = 0
    ∧ (1 ≤ (b.x - a.x) * (b.x - a.x) + (b.y - a.y) * (b.y - a.y) →
        Real.sqrt ((segNormalR a b size).1 ^ 2 + (segNormalR a b size).2 ^ 2)
          = segWidthR a b size / 2) := by
  constructor
  · simp only [segNormalR]
    ring
  · intro h
    simp only [segNormalR]
    have hd2 : (0:ℝ) ≤ (b.x - a.x) * (b.x - a.x) + (b.y - a.y) * (b.y - a.y) := by positivity
    have hs1 : 1 ≤ Real.sqrt ((b.x - a.x) * (b.x - a.x) + (b.y - a.y) * (b.y - a.y)) := by
      rw [show (1:ℝ) = Real.sqrt 1 from Real.sqrt_one.symm]
      exact Real.sqrt_le_sqrt (by simpa using h)
    have hmax : max (Real.sqrt ((b.x - a.x) * (b.x - a.x) + (b.y - a.y) * (b.y - a.y)))
        (1.0 : ℝ) = Real.sqrt ((b.x - a.x) * (b.x - a.x) + (b.y - a.y) * (b.y - a.y)) := by
      rw [show (1.0 : ℝ) = 1 from by norm_num]
      exact max_eq_left hs1
    have hmul : Real.sqrt ((b.x - a.x) * (b.x - a.x) + (b.y - a.y) * (b.y - a.y)) *
          Real.sqrt ((b.x - a.x) * (b.x - a.x) + (b.y - a.y) * (b.y - a.y))
        = (b.x - a.x) * (b.x - a.x) + (b.y - a.y) * (b.y - a.y) :=
      Real.mul_self_sqrt hd2
    have hw1 : (1:ℝ) ≤ segWidthR a b size := by
      unfold segWidthR
      rw [show (1.0 : ℝ) = 1 from by norm_num]
      exact le_max_right _ _
    have hd2ne : (b.x - a.x) * (b.x - a.x) + (b.y - a.y) * (b.y - a.y) ≠ 0 := by linarith
    rw [hmax]
    have key : (-(b.y - a.y) / Real.sqrt ((b.x - a.x) * (b.x - a.x) + (b.y - a.y) * (b.y - a.y))
          * segWidthR a b size * 0.5) ^ 2
        + ((b.x - a.x) / Real.sqrt ((b.x - a.x) * (b.x - a.x) + (b.y - a.y) * (b.y - a.y))
          * segWidthR a b size * 0.5) ^ 2
        = (segWidthR a b size / 2) ^ 2 := by
      have e1 : (-(b.y - a.y) / Real.sqrt ((b.x - a.x) * (b.x - a.x) + (b.y - a.y) * (b.y - a.y))
            * segWidthR a b size * 0.5) ^ 2
          + ((b.x - a.x) / Real.sqrt ((b.x - a.x) * (b.x - a.x) + (b.y - a.y) * (b.y - a.y))
            * segWidthR a b size * 0.5) ^ 2
          = ((b.x - a.x) * (b.x - a.x) + (b.y - a.y) * (b.y - a.y)) /
              (Real.sqrt ((b.x - a.x) * (b.x - a.x) + (b.y - a.y) * (b.y - a.y)) *
               Real.sqrt ((b.x - a.x) * (b.x - a.x) + (b.y - a.y) * (b.y - a.y)))
            * (segWidthR a b size * segWidthR a b size) * (1/4) := by
        ring
      rw [e1, hmul, div_self hd2ne]
      ring
    rw [key]
    exact Real.sqrt_sq (by linarith)

/-- Witness for `segment_normal_spec` on a unit-length segment: the
magnitude hypothesis holds and the magnitude equals `width/2`. -/
theorem segment_normal_spec_witness :
    Real.sqrt ((segNormalR ⟨0, 0, 1⟩ ⟨0, 1, 1⟩ 1).1 ^ 2 +
        (segNormalR ⟨0, 0, 1⟩ ⟨0, 1, 1⟩ 1).2 ^ 2)
      = segWidthR ⟨0, 0, 1⟩ ⟨0, 1, 1⟩ 1 / 2 :=
  (segment_normal_spec ⟨0, 0, 1⟩ ⟨0, 1, 1⟩ 1).2 (by norm_num)

end OrbInk
